import Mathlib

/-!
Verification model of the `bitmatch` proc-macro crate (`src/lib.rs`).

The crate compiles a literal bit-pattern string (characters `0`, `1`, `_`,
spaces, and arbitrary extractor letters) into a mask/compare/shift-extract
expression over a fixed-width unsigned integer.  The model below follows the
source: the character scan of `gen_code!` becomes an explicit state machine,
machine integers of width `w` become `Nat` with `% 2^w` wherever the Rust
arithmetic wraps, and the argument-validation shell becomes a function on a
token model returning `Except`.
-/

namespace Bitmatch

/-- UTF-8 encoded size in bytes of one character, as Rust `String::len`
counts it. -/
def charBytes (c : Char) : Nat :=
  if c.toNat < 0x80 then 1
  else if c.toNat < 0x800 then 2
  else if c.toNat < 0x10000 then 3
  else 4

/-- Rust `String::len` of a string with these characters: total UTF-8 byte
length. -/
def byteLen (p : List Char) : Nat := (p.map charBytes).sum

/-- `pattern.replace(" ", "")` (src/lib.rs line 56): removes space characters
only. -/
def strip (p : List Char) : List Char := p.filter (fun c => c != ' ')

/-- State of the character scan inside `gen_code!`: the accumulated
`bit_mask` / `bit_pattern`, the pushed `(args_pos, args_mask)` pairs, and
the run-tracking variables `prev` and `count`. -/
structure ScanState where
  bit_mask : Nat
  bit_pattern : Nat
  args : List (Nat × Nat)
  prev : Option Char
  count : Nat
deriving DecidableEq

/-- The inner loop of `gen_code!` building a field mask of `count` low bits
in `w`-bit arithmetic: `for _ in 0..count { mask <<= 1; mask |= 1 }`. -/
def fieldMask (w : Nat) : Nat → Nat
  | 0 => 0
  | k + 1 => ((fieldMask w k <<< 1) % 2 ^ w) ||| 1

/-- The run-boundary block of the scan (src/lib.rs lines 125-140): if the
previous character exists, differs from the current one and is an extractor
letter, push the field `(pattern.len() - i, field mask)` and reset `count`;
if it merely differs, reset `count`. -/
def runEnd (w len i : Nat) (s : ScanState) (bit : Char) : ScanState :=
  match s.prev with
  | some x =>
    if x ≠ bit ∧ x ≠ '0' ∧ x ≠ '1' ∧ x ≠ '_' then
      { s with args := s.args ++ [((len - i) % 2 ^ w, fieldMask w s.count)], count := 0 }
    else if x ≠ bit then
      { s with count := 0 }
    else s
  | none => s

/-- The bit that the `match bit` arms or into `bit_mask`: `1` for the fixed
characters `'0'` and `'1'`, `0` for `'_'` and every other character. -/
def maskVal (c : Char) : Nat := if c = '0' then 1 else if c = '1' then 1 else 0

/-- The bit that the `match bit` arms or into `bit_pattern`: `1` only
for `'1'`. -/
def patVal (c : Char) : Nat := if c = '1' then 1 else 0

/-- One iteration of `for (i, bit) in pattern.chars().enumerate()`
(src/lib.rs lines 104-143): shift `bit_mask` / `bit_pattern`, or in the new
low bit, handle the run boundary, then `count += 1; prev = Some(bit)`. -/
def scanStep (w len i : Nat) (s : ScanState) (bit : Char) : ScanState :=
  let s1 : ScanState :=
    { s with
      bit_mask := ((s.bit_mask <<< 1) % 2 ^ w) ||| maskVal bit,
      bit_pattern := ((s.bit_pattern <<< 1) % 2 ^ w) ||| patVal bit }
  let s2 := runEnd w len i s1 bit
  { s2 with count := s2.count + 1, prev := some bit }

/-- The whole scan loop, threading the character index `i`. -/
def scanAux (w len : Nat) : Nat → ScanState → List Char → ScanState
  | _, s, [] => s
  | i, s, bit :: rest => scanAux w len (i + 1) (scanStep w len i s bit) rest

/-- The trailing-run block after the loop (src/lib.rs lines 144-155): if the
last character is an extractor letter, push the field `(0, field mask)`. -/
def finalize (w : Nat) (s : ScanState) : ScanState :=
  match s.prev with
  | some x =>
    if x ≠ '0' ∧ x ≠ '1' ∧ x ≠ '_' then
      { s with args := s.args ++ [(0, fieldMask w s.count)] }
    else s
  | none => s

/-- The compiled match plan: `bit_mask`, `bit_pattern` and, in push order,
the `(position, field mask)` pairs of the extraction fields. -/
structure Plan where
  mask : Nat
  expect : Nat
  fields : List (Nat × Nat)
deriving DecidableEq

/-- `gen_code_u<w>` restricted to its compile-time computation: run the scan
over the (already stripped) pattern and package the plan.  `len` is
`pattern.len()`, the UTF-8 byte length. -/
def gen_code (w : Nat) (pattern : List Char) : Plan :=
  let len := byteLen pattern
  let s := finalize w (scanAux w len 0 ⟨0, 0, [], none, 0⟩ pattern)
  ⟨s.bit_mask, s.bit_pattern, s.args⟩

/-- The width dispatch `match pattern.len() { 1..=8 => ..u8, ... }`
(src/lib.rs lines 79-88). -/
def selectWidth (L : Nat) : Option Nat :=
  if 1 ≤ L ∧ L ≤ 8 then some 8
  else if 9 ≤ L ∧ L ≤ 16 then some 16
  else if 17 ≤ L ∧ L ≤ 32 then some 32
  else if 33 ≤ L ∧ L ≤ 64 then some 64
  else if 65 ≤ L ∧ L ≤ 128 then some 128
  else none

/-- Pattern-to-plan pipeline of `bitmatch` for a raw pattern string: strip
spaces, select the width from the byte length, compile.  `none` models the
compile-time `panic!("unsupported pattern length")`. -/
def bitmatchCompile (raw : List Char) : Option (Nat × Plan) :=
  let pattern := strip raw
  match selectWidth (byteLen pattern) with
  | some w => some (w, gen_code w pattern)
  | none => none

/-- Shape of the value produced by the emitted expression:
`None`, `Some(())`, `Some(v)`, or `Some((v1, v2, ...))`. -/
inductive MatchResult where
  | noMatch
  | unit
  | scalar (v : Nat)
  | tuple (vs : List Nat)
deriving DecidableEq

/-- One field extraction of the emitted code: `(#ident as $x >> pos) & mask`
(src/lib.rs line 162). -/
def extract (w : Nat) (v : Nat) (f : Nat × Nat) : Nat :=
  ((v % 2 ^ w) >>> f.1) &&& f.2

/-- Runtime semantics of the emitted expression (src/lib.rs lines 157-168):
`if #ident as $x & #bit_mask == #bit_pattern { Some((...)) } else { None }`,
where the `Some` payload is `()` for zero fields, a scalar for one field and
a tuple for two or more. -/
def bitmatchRun (w : Nat) (plan : Plan) (v : Nat) : MatchResult :=
  if (v % 2 ^ w) &&& plan.mask = plan.expect then
    match plan.fields with
    | [] => .unit
    | [f] => .scalar (extract w v f)
    | fs => .tuple (fs.map (extract w v))
  else .noMatch

/-- The list of extracted values carried by a result. -/
def resultValues : MatchResult → List Nat
  | .noMatch => []
  | .unit => []
  | .scalar v => [v]
  | .tuple vs => vs

/-- Model of `proc_macro2::TokenTree` as far as `bitmatch` inspects it.  A
literal carries its display string (for a string literal, including the
surrounding quotes). -/
inductive TokenTree where
  | lit (s : List Char)
  | punct (c : Char)
  | ident (name : List Char)
  | group
deriving DecidableEq

/-- The argument-validation shell of `bitmatch` (src/lib.rs lines 40-88):
take exactly three tokens, require a quoted string literal, a `,` punct and
an identifier, strip quotes and spaces, then dispatch on the byte length.
Each `panic!` becomes an `Except.error` with the panic message. -/
def bitmatchEntry (input : List TokenTree) : Except String (Nat × Plan × List Char) :=
  match input with
  | [] => .error "too less arguments"
  | [_] => .error "too less arguments"
  | [_, _] => .error "too less arguments"
  | pat :: comma :: idTok :: rest =>
    if rest ≠ [] then .error "too much arguments"
    else
      match pat with
      | .lit s =>
        if s.head? = some '\"' ∧ s.getLast? = some '\"' then
          let pattern := strip ((s.drop 1).dropLast)
          match comma with
          | .punct c =>
            if c ≠ ',' then .error "2nd argument must be ','"
            else
              match idTok with
              | .ident name =>
                match selectWidth (byteLen pattern) with
                | some w => .ok (w, gen_code w pattern, name)
                | none => .error "unsupported pattern length"
              | _ => .error "3rd argument must be identifier"
          | _ => .error "2nd argument must be ','"
        else .error "1st argument must be string literal"
      | _ => .error "1st argument must be string literal"

/-! ### Bit-level characterization of `bit_mask` and `bit_pattern`

The scan threads `bit_mask` and `bit_pattern` through
`m ↦ ((m <<< 1) % 2^w) ||| b` steps.  `foldM` isolates that fold, `foldP`
is its pure counterpart `m ↦ 2*m + b`, and `bitAt` states which bit of the
result corresponds to which pattern position. -/

/-- The `bit_mask`/`bit_pattern` accumulation, isolated: wrapping shift then
or-in of the character's contribution. -/
def foldM (w : Nat) (val : Char → Nat) : Nat → List Char → Nat
  | m, [] => m
  | m, c :: l => foldM w val (((m <<< 1) % 2 ^ w) ||| val c) l

/-- Pure (non-wrapping) counterpart of `foldM`. -/
def foldP (val : Char → Nat) : Nat → List Char → Nat
  | m, [] => m
  | m, c :: l => foldP val (2 * m + val c) l

/-- Bit `k` of the accumulated word, read back from the pattern: bit `k`
corresponds to the pattern character at position `length - 1 - k` counted
from the left. -/
def bitAt (val : Char → Nat) (p : List Char) (k : Nat) : Bool :=
  if k < p.length then
    match p[p.length - 1 - k]? with
    | some c => decide (val c = 1)
    | none => false
  else false

lemma maskVal_le_one (c : Char) : maskVal c ≤ 1 := by
  unfold maskVal; split_ifs <;> omega

lemma patVal_le_one (c : Char) : patVal c ≤ 1 := by
  unfold patVal; split_ifs <;> omega

lemma two_mul_lor_one (m : Nat) : 2 * m ||| 1 = 2 * m + 1 := by
  apply Nat.eq_of_testBit_eq
  intro k
  cases k with
  | zero =>
    rw [Nat.testBit_lor, Nat.testBit_zero, Nat.testBit_zero]
    have h1 : 2 * m % 2 = 0 := by omega
    have h2 : (2 * m + 1) % 2 = 1 := by omega
    simp [h1, h2]
  | succ k =>
    rw [Nat.testBit_lor, Nat.testBit_succ, Nat.testBit_succ, Nat.testBit_succ]
    have h1 : 2 * m / 2 = m := by omega
    have h2 : (2 * m + 1) / 2 = m := by omega
    have h3 : (1 : Nat) / 2 = 0 := by norm_num
    rw [h1, h2, h3, Nat.zero_testBit, Bool.or_false]

lemma lor_small (m b : Nat) (hb : b ≤ 1) : 2 * m ||| b = 2 * m + b := by
  have : b = 0 ∨ b = 1 := by omega
  rcases this with h | h
  · rw [h, Nat.or_zero, Nat.add_zero]
  · rw [h, two_mul_lor_one]

lemma foldM_eq_foldP (w : Nat) (val : Char → Nat) (hval : ∀ c, val c ≤ 1) :
    ∀ (l : List Char) (m a : Nat), m < 2 ^ a → a + l.length ≤ w →
      foldM w val m l = foldP val m l := by
  intro l
  induction l with
  | nil => intro m a _ _; rfl
  | cons c rest ih =>
    intro m a hm hw
    rw [List.length_cons] at hw
    have hstep : 2 * m + val c < 2 ^ (a + 1) := by
      have := hval c
      rw [pow_succ]
      omega
    have hs : m <<< 1 = 2 * m := by
      rw [Nat.shiftLeft_eq, pow_one, Nat.mul_comm]
    have hle : 2 ^ (a + 1) ≤ 2 ^ w := Nat.pow_le_pow_right (by norm_num) (by omega)
    have hmod : (m <<< 1) % 2 ^ w = 2 * m := by
      rw [hs]
      exact Nat.mod_eq_of_lt (by omega)
    rw [foldM, foldP, hmod, lor_small m (val c) (hval c)]
    exact ih (2 * m + val c) (a + 1) hstep (by omega)

lemma foldP_append (val : Char → Nat) :
    ∀ (l : List Char) (m : Nat) (c : Char),
      foldP val m (l ++ [c]) = 2 * foldP val m l + val c := by
  intro l
  induction l with
  | nil => intro m c; rfl
  | cons d rest ih => intro m c; rw [List.cons_append, foldP, foldP, ih]

lemma foldP_testBit (val : Char → Nat) (hval : ∀ c, val c ≤ 1) (p : List Char) :
    ∀ k, (foldP val 0 p).testBit k = bitAt val p k := by
  induction p using List.reverseRecOn with
  | nil =>
    intro k
    show (foldP val 0 []).testBit k = bitAt val [] k
    simp [foldP, bitAt]
  | append_singleton p c ih =>
    intro k
    rw [foldP_append]
    have hlen : (p ++ [c]).length = p.length + 1 := by simp
    cases k with
    | zero =>
      rw [Nat.testBit_zero]
      have hv := hval c
      have hmod : (2 * foldP val 0 p + val c) % 2 = val c := by omega
      rw [hmod]
      have hget : (p ++ [c])[p.length]? = some c := by
        rw [List.getElem?_append_right (le_refl _)]
        simp
      unfold bitAt
      rw [hlen, if_pos (by omega : 0 < p.length + 1),
        (by omega : p.length + 1 - 1 - 0 = p.length), hget]
    | succ k =>
      rw [Nat.testBit_succ]
      have hv := hval c
      have hdiv : (2 * foldP val 0 p + val c) / 2 = foldP val 0 p := by omega
      rw [hdiv, ih k]
      unfold bitAt
      rw [hlen]
      by_cases hk : k < p.length
      · have hget : (p ++ [c])[p.length - 1 - k]? = p[p.length - 1 - k]? :=
          List.getElem?_append_left (by omega)
        rw [if_pos hk, if_pos (by omega : k + 1 < p.length + 1),
          (by omega : p.length + 1 - 1 - (k + 1) = p.length - 1 - k), hget]
      · rw [if_neg hk, if_neg (by omega : ¬ (k + 1 < p.length + 1))]

/-! ### Projections of the scan onto `bit_mask` / `bit_pattern` -/

lemma runEnd_bit_mask (w len i : Nat) (s : ScanState) (bit : Char) :
    (runEnd w len i s bit).bit_mask = s.bit_mask := by
  cases s with
  | mk bm bp args prev count =>
    cases prev with
    | none => rfl
    | some x =>
      show (if x ≠ bit ∧ x ≠ '0' ∧ x ≠ '1' ∧ x ≠ '_' then _ else _ : ScanState).bit_mask = bm
      split_ifs <;> rfl

lemma runEnd_bit_pattern (w len i : Nat) (s : ScanState) (bit : Char) :
    (runEnd w len i s bit).bit_pattern = s.bit_pattern := by
  cases s with
  | mk bm bp args prev count =>
    cases prev with
    | none => rfl
    | some x =>
      show (if x ≠ bit ∧ x ≠ '0' ∧ x ≠ '1' ∧ x ≠ '_' then _ else _ : ScanState).bit_pattern = bp
      split_ifs <;> rfl

lemma scanStep_bit_mask (w len i : Nat) (s : ScanState) (bit : Char) :
    (scanStep w len i s bit).bit_mask = ((s.bit_mask <<< 1) % 2 ^ w) ||| maskVal bit := by
  unfold scanStep
  rw [runEnd_bit_mask]

lemma scanStep_bit_pattern (w len i : Nat) (s : ScanState) (bit : Char) :
    (scanStep w len i s bit).bit_pattern = ((s.bit_pattern <<< 1) % 2 ^ w) ||| patVal bit := by
  unfold scanStep
  rw [runEnd_bit_pattern]

lemma scanAux_bit_mask (w len : Nat) :
    ∀ (l : List Char) (i : Nat) (s : ScanState),
      (scanAux w len i s l).bit_mask = foldM w maskVal s.bit_mask l := by
  intro l
  induction l with
  | nil => intro i s; rfl
  | cons c rest ih =>
    intro i s
    rw [scanAux, ih, foldM, scanStep_bit_mask]

lemma scanAux_bit_pattern (w len : Nat) :
    ∀ (l : List Char) (i : Nat) (s : ScanState),
      (scanAux w len i s l).bit_pattern = foldM w patVal s.bit_pattern l := by
  intro l
  induction l with
  | nil => intro i s; rfl
  | cons c rest ih =>
    intro i s
    rw [scanAux, ih, foldM, scanStep_bit_pattern]

lemma finalize_bit_mask (w : Nat) (s : ScanState) :
    (finalize w s).bit_mask = s.bit_mask := by
  cases s with
  | mk bm bp args prev count =>
    cases prev with
    | none => rfl
    | some x =>
      show (if x ≠ '0' ∧ x ≠ '1' ∧ x ≠ '_' then _ else _ : ScanState).bit_mask = bm
      split_ifs <;> rfl

lemma finalize_bit_pattern (w : Nat) (s : ScanState) :
    (finalize w s).bit_pattern = s.bit_pattern := by
  cases s with
  | mk bm bp args prev count =>
    cases prev with
    | none => rfl
    | some x =>
      show (if x ≠ '0' ∧ x ≠ '1' ∧ x ≠ '_' then _ else _ : ScanState).bit_pattern = bp
      split_ifs <;> rfl

lemma gen_code_mask (w : Nat) (p : List Char) (hw : p.length ≤ w) :
    (gen_code w p).mask = foldP maskVal 0 p := by
  show (finalize w (scanAux w (byteLen p) 0 ⟨0, 0, [], none, 0⟩ p)).bit_mask = _
  rw [finalize_bit_mask, scanAux_bit_mask]
  exact foldM_eq_foldP w maskVal maskVal_le_one p 0 0 (by norm_num) (by omega)

lemma gen_code_expect (w : Nat) (p : List Char) (hw : p.length ≤ w) :
    (gen_code w p).expect = foldP patVal 0 p := by
  show (finalize w (scanAux w (byteLen p) 0 ⟨0, 0, [], none, 0⟩ p)).bit_pattern = _
  rw [finalize_bit_pattern, scanAux_bit_pattern]
  exact foldM_eq_foldP w patVal patVal_le_one p 0 0 (by norm_num) (by omega)

lemma gen_code_mask_testBit (w : Nat) (p : List Char) (hw : p.length ≤ w) (k : Nat) :
    (gen_code w p).mask.testBit k = bitAt maskVal p k := by
  rw [gen_code_mask w p hw, foldP_testBit maskVal maskVal_le_one]

lemma gen_code_expect_testBit (w : Nat) (p : List Char) (hw : p.length ≤ w) (k : Nat) :
    (gen_code w p).expect.testBit k = bitAt patVal p k := by
  rw [gen_code_expect w p hw, foldP_testBit patVal patVal_le_one]

/-! ### Projection of the scan onto the pushed fields -/

/-- The field-emission behaviour of the scan, projected out of `ScanState`:
processing the remaining characters `l` from index `i`, with remembered
previous character `prev` and current run length `count`, this is the list
of `(position, field mask)` pairs that the loop (and the trailing-run block
after it) still pushes. -/
def fieldsRun (w len : Nat) : Nat → Option Char → Nat → List Char → List (Nat × Nat)
  | _, none, _, [] => []
  | _, some x, count, [] =>
    if x ≠ '0' ∧ x ≠ '1' ∧ x ≠ '_' then [(0, fieldMask w count)] else []
  | i, none, count, bit :: rest => fieldsRun w len (i + 1) (some bit) (count + 1) rest
  | i, some x, count, bit :: rest =>
    if x ≠ bit ∧ x ≠ '0' ∧ x ≠ '1' ∧ x ≠ '_' then
      ((len - i) % 2 ^ w, fieldMask w count) :: fieldsRun w len (i + 1) (some bit) 1 rest
    else if x ≠ bit then
      fieldsRun w len (i + 1) (some bit) 1 rest
    else
      fieldsRun w len (i + 1) (some bit) (count + 1) rest

lemma scanStep_args (w len i : Nat) (s : ScanState) (bit : Char) :
    (scanStep w len i s bit).args =
      match s.prev with
      | some x =>
        if x ≠ bit ∧ x ≠ '0' ∧ x ≠ '1' ∧ x ≠ '_' then
          s.args ++ [((len - i) % 2 ^ w, fieldMask w s.count)]
        else s.args
      | none => s.args := by
  cases s with
  | mk bm bp args prev count =>
    cases prev with
    | none => rfl
    | some x =>
      show (runEnd w len i _ bit).args = _
      unfold runEnd
      dsimp only
      split_ifs <;> rfl

lemma scanStep_prev (w len i : Nat) (s : ScanState) (bit : Char) :
    (scanStep w len i s bit).prev = some bit := rfl

lemma scanStep_count (w len i : Nat) (s : ScanState) (bit : Char) :
    (scanStep w len i s bit).count =
      (match s.prev with
       | some x => if x ≠ bit then 0 else s.count
       | none => s.count) + 1 := by
  cases s with
  | mk bm bp args prev count =>
    cases prev with
    | none => rfl
    | some x =>
      show (runEnd w len i _ bit).count + 1 = _
      unfold runEnd
      dsimp only
      by_cases h1 : x ≠ bit ∧ x ≠ '0' ∧ x ≠ '1' ∧ x ≠ '_'
      · rw [if_pos h1, if_pos h1.1]
      · by_cases h2 : x ≠ bit
        · rw [if_neg h1, if_pos h2, if_pos h2]
        · rw [if_neg h1, if_neg h2, if_neg h2]

lemma scanAux_args (w len : Nat) :
    ∀ (l : List Char) (i : Nat) (s : ScanState),
      (finalize w (scanAux w len i s l)).args =
        s.args ++ fieldsRun w len i s.prev s.count l := by
  intro l
  induction l with
  | nil =>
    intro i s
    cases s with
    | mk bm bp args prev count =>
      cases prev with
      | none => simp [scanAux, finalize, fieldsRun]
      | some x =>
        show (finalize w ⟨bm, bp, args, some x, count⟩).args =
          args ++ fieldsRun w len i (some x) count []
        unfold finalize fieldsRun
        dsimp only
        by_cases h : x ≠ '0' ∧ x ≠ '1' ∧ x ≠ '_'
        · rw [if_pos h, if_pos h]
        · rw [if_neg h, if_neg h, List.append_nil]
  | cons bit rest ih =>
    intro i s
    rw [scanAux, ih (i + 1) (scanStep w len i s bit),
      scanStep_args, scanStep_prev, scanStep_count]
    cases hp : s.prev with
    | none => rw [fieldsRun]
    | some x =>
      by_cases h1 : x ≠ bit ∧ x ≠ '0' ∧ x ≠ '1' ∧ x ≠ '_'
      · simp [fieldsRun, h1]
      · by_cases h2 : x ≠ bit
        · have hext : ¬(x ≠ '0' ∧ x ≠ '1' ∧ x ≠ '_') := fun hx => h1 ⟨h2, hx⟩
          simp [fieldsRun, h1, h2, hext]
        · simp [fieldsRun, h1, h2]

lemma gen_code_fields (w : Nat) (p : List Char) :
    (gen_code w p).fields = fieldsRun w (byteLen p) 0 none 0 p := by
  show (finalize w (scanAux w (byteLen p) 0 ⟨0, 0, [], none, 0⟩ p)).args = _
  rw [scanAux_args]
  rfl

/-! ### Spec-side field decomposition and its equivalence with the scan -/

/-- Spec-side field decomposition, following the spec's words (spec.md §3,
§4.1): scanning left to right from character index `i` in a pattern of
total character length `n`, each maximal run of adjacent identical
extractor characters (any character other than `0`, `1`, `_`) of length `ℓ`
ending at 0-based index `e` contributes one field
`(n - 1 - e, 2 ^ ℓ - 1)`, in left-to-right run order. -/
def specFieldsAux (n : Nat) : Nat → List Char → List (Nat × Nat)
  | _, [] => []
  | i, c :: rest =>
    if c ≠ '0' ∧ c ≠ '1' ∧ c ≠ '_' then
      (n - (i + 1 + (rest.takeWhile (fun d => d == c)).length),
        2 ^ (1 + (rest.takeWhile (fun d => d == c)).length) - 1)
        :: specFieldsAux n (i + 1 + (rest.takeWhile (fun d => d == c)).length)
            (rest.dropWhile (fun d => d == c))
    else specFieldsAux n (i + 1) rest
termination_by _ l => l.length
decreasing_by
  all_goals simp_wf
  all_goals exact Nat.lt_succ_of_le ((List.dropWhile_sublist _).length_le)

/-- Spec-side fields of a whole pattern of character length `q.length`. -/
def specFields (q : List Char) : List (Nat × Nat) := specFieldsAux q.length 0 q

lemma specFieldsAux_nil (n i : Nat) : specFieldsAux n i [] = [] := by
  rw [specFieldsAux]

lemma specFieldsAux_cons (n i : Nat) (c : Char) (rest : List Char) :
    specFieldsAux n i (c :: rest) =
      if c ≠ '0' ∧ c ≠ '1' ∧ c ≠ '_' then
        (n - (i + 1 + (rest.takeWhile (fun d => d == c)).length),
          2 ^ (1 + (rest.takeWhile (fun d => d == c)).length) - 1)
          :: specFieldsAux n (i + 1 + (rest.takeWhile (fun d => d == c)).length)
              (rest.dropWhile (fun d => d == c))
      else specFieldsAux n (i + 1) rest := by
  rw [specFieldsAux]

lemma fieldsRun_nil_some (w len i : Nat) (x : Char) (m : Nat) :
    fieldsRun w len i (some x) m [] =
      if x ≠ '0' ∧ x ≠ '1' ∧ x ≠ '_' then [(0, fieldMask w m)] else [] := rfl

lemma fieldsRun_cons_some (w len i : Nat) (x : Char) (m : Nat) (bit : Char) (rest : List Char) :
    fieldsRun w len i (some x) m (bit :: rest) =
      if x ≠ bit ∧ x ≠ '0' ∧ x ≠ '1' ∧ x ≠ '_' then
        ((len - i) % 2 ^ w, fieldMask w m) :: fieldsRun w len (i + 1) (some bit) 1 rest
      else if x ≠ bit then fieldsRun w len (i + 1) (some bit) 1 rest
      else fieldsRun w len (i + 1) (some bit) (m + 1) rest := rfl

lemma fieldMask_eq (w : Nat) : ∀ k, k ≤ w → fieldMask w k = 2 ^ k - 1 := by
  intro k
  induction k with
  | zero => intro _; rfl
  | succ k ih =>
    intro hk
    rw [fieldMask, ih (by omega), Nat.shiftLeft_eq, pow_one]
    have hp : 2 ^ (k + 1) = 2 ^ k * 2 := pow_succ 2 k
    have h1 : 0 < 2 ^ k := Nat.two_pow_pos k
    have hle : 2 ^ (k + 1) ≤ 2 ^ w := Nat.pow_le_pow_right (by norm_num) hk
    have hmod : (2 ^ k - 1) * 2 % 2 ^ w = (2 ^ k - 1) * 2 :=
      Nat.mod_eq_of_lt (by omega)
    rw [hmod, Nat.mul_comm (2 ^ k - 1) 2, two_mul_lor_one]
    omega

lemma length_le_byteLen (p : List Char) : p.length ≤ byteLen p := by
  induction p with
  | nil => simp [byteLen]
  | cons c rest ih =>
    have h : 1 ≤ charBytes c := by unfold charBytes; split_ifs <;> omega
    simp only [byteLen, List.map_cons, List.sum_cons, List.length_cons] at ih ⊢
    omega

lemma byteLen_ascii (p : List Char) (h : ∀ c ∈ p, c.toNat < 128) :
    byteLen p = p.length := by
  induction p with
  | nil => rfl
  | cons c rest ih =>
    have hc : charBytes c = 1 := by
      unfold charBytes
      rw [if_pos (by have := h c (List.mem_cons_self c rest); omega)]
    have hr := ih (fun d hd => h d (List.mem_cons_of_mem c hd))
    simp only [byteLen, List.map_cons, List.sum_cons, List.length_cons] at hr ⊢
    omega

lemma selectWidth_le (L w : Nat) (h : selectWidth L = some w) :
    1 ≤ L ∧ L ≤ w := by
  unfold selectWidth at h
  split_ifs at h
  all_goals first
    | exact Option.noConfusion h
    | (injection h with h; omega)

/-- Core equivalence between the scan's field emission and the spec-side
maximal-run decomposition, for patterns whose byte length equals their
character length `n` and `n ≤ w`.  Part one: the remembered previous
character is not an extractor letter; part two: it is, with a pending run
of `m ≥ 1` characters just before index `i`. -/
lemma fieldsRun_eq_spec_aux (w n : Nat) (hnw : n ≤ w) :
    ∀ N : Nat, ∀ l : List Char, l.length ≤ N → ∀ i : Nat, i + l.length = n →
      (∀ x m, ¬(x ≠ '0' ∧ x ≠ '1' ∧ x ≠ '_') →
        fieldsRun w n i (some x) m l = specFieldsAux n i l) ∧
      (∀ x m, (x ≠ '0' ∧ x ≠ '1' ∧ x ≠ '_') → 1 ≤ m → m ≤ i →
        fieldsRun w n i (some x) m l =
          (n - (i + (l.takeWhile (fun d => d == x)).length),
            2 ^ (m + (l.takeWhile (fun d => d == x)).length) - 1)
            :: specFieldsAux n (i + (l.takeWhile (fun d => d == x)).length)
                (l.dropWhile (fun d => d == x))) := by
  intro N
  induction N with
  | zero =>
    intro l hl i hi
    have hnil : l = [] := List.eq_nil_of_length_eq_zero (by omega)
    subst hnil
    refine ⟨?_, ?_⟩
    · intro x m hx
      rw [fieldsRun_nil_some, if_neg hx, specFieldsAux_nil]
    · intro x m hx hm hmi
      rw [fieldsRun_nil_some, if_pos hx]
      simp only [List.takeWhile_nil, List.dropWhile_nil, List.length_nil, Nat.add_zero]
      rw [specFieldsAux_nil]
      have hin : i = n := by simpa using hi
      rw [fieldMask_eq w m (by omega)]
      subst hin
      rw [Nat.sub_self]
  | succ N ihN =>
    intro l hl i hi
    cases l with
    | nil => exact ihN [] (by simp) i hi
    | cons b rest =>
      simp only [List.length_cons] at hl hi
      have hrest : rest.length ≤ N := by omega
      have hi1 : (i + 1) + rest.length = n := by omega
      have hIH := ihN rest hrest (i + 1) hi1
      have fresh : fieldsRun w n (i + 1) (some b) 1 rest = specFieldsAux n i (b :: rest) := by
        by_cases hb : b ≠ '0' ∧ b ≠ '1' ∧ b ≠ '_'
        · rw [hIH.2 b 1 hb (le_refl 1) (by omega), specFieldsAux_cons, if_pos hb]
        · rw [hIH.1 b 1 hb, specFieldsAux_cons, if_neg hb]
      refine ⟨?_, ?_⟩
      · intro x m hx
        rw [fieldsRun_cons_some]
        have h1 : ¬(x ≠ b ∧ x ≠ '0' ∧ x ≠ '1' ∧ x ≠ '_') := fun hc => hx hc.2
        rw [if_neg h1]
        by_cases hxb : x ≠ b
        · rw [if_pos hxb]
          exact fresh
        · rw [if_neg hxb]
          have hxb2 : x = b := not_not.mp hxb
          subst hxb2
          rw [hIH.1 x (m + 1) hx, specFieldsAux_cons, if_neg hx]
      · intro x m hx hm hmi
        rw [fieldsRun_cons_some]
        by_cases hxb : x = b
        · subst hxb
          rw [if_neg (fun hc => hc.1 rfl), if_neg (fun hc => hc rfl)]
          rw [hIH.2 x (m + 1) hx (by omega) (by omega)]
          have hbx : ((fun d => d == x) x : Bool) = true := by simp
          rw [List.takeWhile_cons_of_pos (p := fun d => d == x) hbx,
            List.dropWhile_cons_of_pos (p := fun d => d == x) hbx, List.length_cons]
          have e1 : (i + 1) + (rest.takeWhile (fun d => d == x)).length
              = i + ((rest.takeWhile (fun d => d == x)).length + 1) := by omega
          have e2 : (m + 1) + (rest.takeWhile (fun d => d == x)).length
              = m + ((rest.takeWhile (fun d => d == x)).length + 1) := by omega
          rw [e1, e2]
        · have hne : x ≠ b := hxb
          rw [if_pos ⟨hne, hx⟩]
          have hbne : ¬ ((fun d => d == x) b = true) := by
            show ¬ ((b == x) = true)
            simp only [beq_iff_eq]
            exact fun hc => hxb hc.symm
          rw [List.takeWhile_cons_of_neg (p := fun d => d == x) hbne,
            List.dropWhile_cons_of_neg (p := fun d => d == x) hbne]
          simp only [List.length_nil, Nat.add_zero]
          have hw2 : w < 2 ^ w := Nat.lt_two_pow w
          rw [fresh, fieldMask_eq w m (by omega),
            Nat.mod_eq_of_lt (show n - i < 2 ^ w from by omega)]

/-- The fields computed by `gen_code` coincide with the spec-side maximal
run decomposition, for all-ASCII patterns fitting the width. -/
lemma gen_code_fields_spec (w : Nat) (p : List Char)
    (hascii : ∀ c ∈ p, c.toNat < 128) (hw : p.length ≤ w) :
    (gen_code w p).fields = specFields p := by
  rw [gen_code_fields, byteLen_ascii p hascii]
  cases p with
  | nil =>
    rw [specFields, specFieldsAux_nil]
    rfl
  | cons b rest =>
    show fieldsRun w (b :: rest).length 1 (some b) 1 rest = specFields (b :: rest)
    have h := fieldsRun_eq_spec_aux w (b :: rest).length hw rest.length rest (le_refl _) 1
      (by simp [Nat.add_comm])
    by_cases hb : b ≠ '0' ∧ b ≠ '1' ∧ b ≠ '_'
    · rw [h.2 b 1 hb (le_refl 1) (le_refl 1), specFields, specFieldsAux_cons, if_pos hb]
    · rw [h.1 b 1 hb, specFields, specFieldsAux_cons, if_neg hb]

/-! ### The fixed-bit test and the result shape -/

lemma bitAt_of_getElem (val : Char → Nat) (p : List Char) (j : Nat) (c : Char)
    (hj : p[j]? = some c) (hjn : j < p.length) :
    bitAt val p (p.length - 1 - j) = decide (val c = 1) := by
  unfold bitAt
  rw [if_pos (by omega : p.length - 1 - j < p.length),
    (by omega : p.length - 1 - (p.length - 1 - j) = j), hj]

lemma bitAt_ge (val : Char → Nat) (p : List Char) (k : Nat) (hk : p.length ≤ k) :
    bitAt val p k = false := by
  unfold bitAt
  rw [if_neg (by omega)]

lemma lt_of_getElem?_eq_some {p : List Char} {j : Nat} {c : Char}
    (hj : p[j]? = some c) : j < p.length := by
  by_contra hc
  rw [List.getElem?_eq_none (by omega)] at hj
  cases hj

/-- The emitted fixed-bit test `value & mask == expect`, characterized
position by position: it succeeds exactly when every `'0'` position of the
pattern sees a 0 bit of `V` and every `'1'` position sees a 1 bit, the
leftmost pattern character corresponding to the most significant of the
pattern's bits. -/
lemma mask_test_iff (w : Nat) (p : List Char) (hw : p.length ≤ w)
    (V : Nat) (hV : V < 2 ^ w) :
    ((V % 2 ^ w) &&& (gen_code w p).mask = (gen_code w p).expect) ↔
      (∀ j, (p[j]? = some '0' → V.testBit (p.length - 1 - j) = false) ∧
            (p[j]? = some '1' → V.testBit (p.length - 1 - j) = true)) := by
  rw [Nat.mod_eq_of_lt hV]
  constructor
  · intro h j
    constructor
    · intro hj
      have hjn : j < p.length := lt_of_getElem?_eq_some hj
      have hk := congrArg (fun t => t.testBit (p.length - 1 - j)) h
      simp only [Nat.testBit_land] at hk
      rw [gen_code_mask_testBit w p hw, gen_code_expect_testBit w p hw,
        bitAt_of_getElem maskVal p j _ hj hjn, bitAt_of_getElem patVal p j _ hj hjn,
        (by decide : decide (maskVal '0' = 1) = true),
        (by decide : decide (patVal '0' = 1) = false), Bool.and_true] at hk
      exact hk
    · intro hj
      have hjn : j < p.length := lt_of_getElem?_eq_some hj
      have hk := congrArg (fun t => t.testBit (p.length - 1 - j)) h
      simp only [Nat.testBit_land] at hk
      rw [gen_code_mask_testBit w p hw, gen_code_expect_testBit w p hw,
        bitAt_of_getElem maskVal p j _ hj hjn, bitAt_of_getElem patVal p j _ hj hjn,
        (by decide : decide (maskVal '1' = 1) = true),
        (by decide : decide (patVal '1' = 1) = true), Bool.and_true] at hk
      exact hk
  · intro h
    apply Nat.eq_of_testBit_eq
    intro k
    rw [Nat.testBit_land, gen_code_mask_testBit w p hw, gen_code_expect_testBit w p hw]
    by_cases hk : k < p.length
    · have hjn : p.length - 1 - k < p.length := by omega
      have hkj : k = p.length - 1 - (p.length - 1 - k) := by omega
      have hget : p[p.length - 1 - k]? = some (p.get ⟨p.length - 1 - k, hjn⟩) := by
        rw [List.getElem?_eq_getElem hjn]
        rfl
      rw [hkj, bitAt_of_getElem maskVal p _ _ hget hjn, bitAt_of_getElem patVal p _ _ hget hjn]
      have hc := h (p.length - 1 - k)
      by_cases h0 : p.get ⟨p.length - 1 - k, hjn⟩ = '0'
      · rw [hc.1 (by rw [hget, h0]), h0]
        rfl
      · by_cases h1 : p.get ⟨p.length - 1 - k, hjn⟩ = '1'
        · rw [hc.2 (by rw [hget, h1]), h1]
          rfl
        · have hm : maskVal (p.get ⟨p.length - 1 - k, hjn⟩) = 0 := by
            unfold maskVal
            rw [if_neg h0, if_neg h1]
          have hp : patVal (p.get ⟨p.length - 1 - k, hjn⟩) = 0 := by
            unfold patVal
            rw [if_neg h1]
          rw [hm, hp]
          simp
    · rw [bitAt_ge maskVal p k (by omega), bitAt_ge patVal p k (by omega)]
      simp

/-- The emitted expression is a present value exactly when the fixed-bit
test succeeds. -/
lemma bitmatchRun_ne_noMatch (w : Nat) (plan : Plan) (v : Nat) :
    bitmatchRun w plan v ≠ MatchResult.noMatch ↔
      (v % 2 ^ w) &&& plan.mask = plan.expect := by
  unfold bitmatchRun
  split_ifs with h
  · constructor
    · intro _
      exact h
    · intro _
      cases hf : plan.fields with
      | nil => simp
      | cons f fs => cases fs <;> simp
  · simp [h]

/-! ### Small helpers for the claim theorems -/

lemma strip_eq_self (p : List Char) (h : ∀ c ∈ p, c ≠ ' ') : strip p = p := by
  unfold strip
  rw [List.filter_eq_self]
  intro a ha
  simpa using h a ha

lemma bitmatchCompile_some {raw : List Char} {w : Nat} {plan : Plan}
    (h : bitmatchCompile raw = some (w, plan)) :
    selectWidth (byteLen (strip raw)) = some w ∧ plan = gen_code w (strip raw) := by
  simp only [bitmatchCompile] at h
  cases hs : selectWidth (byteLen (strip raw)) with
  | none =>
    rw [hs] at h
    cases h
  | some w2 =>
    rw [hs] at h
    have h2 : w2 = w ∧ gen_code w2 (strip raw) = plan := by simpa using h
    obtain ⟨hw2, hp2⟩ := h2
    subst hw2
    exact ⟨rfl, hp2.symm⟩

lemma bitmatchCompile_none {raw : List Char}
    (h : selectWidth (byteLen (strip raw)) = none) : bitmatchCompile raw = none := by
  simp only [bitmatchCompile, h]

lemma maskVal_eq_one_iff (c : Char) : maskVal c = 1 ↔ (c = '0' ∨ c = '1') := by
  unfold maskVal
  split_ifs with h0 h1
  · simp [h0]
  · simp [h1]
  · simp [h0, h1]

lemma patVal_eq_one_iff (c : Char) : patVal c = 1 ↔ c = '1' := by
  unfold patVal
  split_ifs with h1 <;> simp [h1]

/-- On a successful match the extracted values are, in field order,
`(V >> pos) & mask` for each field of the plan. -/
lemma resultValues_of_match (w : Nat) (plan : Plan) (V : Nat) (hV : V < 2 ^ w)
    (h : bitmatchRun w plan V ≠ MatchResult.noMatch) :
    resultValues (bitmatchRun w plan V) =
      plan.fields.map (fun f => (V >>> f.1) &&& f.2) := by
  have htest := (bitmatchRun_ne_noMatch w plan V).mp h
  unfold bitmatchRun
  rw [if_pos htest]
  have hex : ∀ f : Nat × Nat, extract w V f = (V >>> f.1) &&& f.2 := by
    intro f
    unfold extract
    rw [Nat.mod_eq_of_lt hV]
  cases hf : plan.fields with
  | nil => simp [resultValues]
  | cons f fs =>
    cases fs with
    | nil => simp [resultValues, hex]
    | cons g gs => simp [resultValues, hex]

/-- The first-argument check of `bitmatch`: a literal token whose display
string is delimited by double quotes. -/
def isStringLit : TokenTree → Prop
  | .lit s => s.head? = some '\"' ∧ s.getLast? = some '\"'
  | _ => False

/-! ### Claim theorems -/

/-- C1: for every pattern of length 1..=128 (after space stripping)
consisting only of `0`, `1` and `_`, and every value `V` of the selected
width, the generated expression yields a present result iff at every `'0'`
position of the pattern the corresponding bit of `V` is 0 and at every
`'1'` position it is 1, the leftmost pattern character corresponding to the
most significant of the pattern's bits; `'_'` positions never affect the
outcome. -/
theorem c1_fixed_bit_semantics (p : List Char)
    (hchars : ∀ c ∈ p, c = '0' ∨ c = '1' ∨ c = '_')
    (w : Nat) (plan : Plan) (hc : bitmatchCompile p = some (w, plan))
    (V : Nat) (hV : V < 2 ^ w) :
    bitmatchRun w plan V ≠ MatchResult.noMatch ↔
      (∀ j, (p[j]? = some '0' → V.testBit (p.length - 1 - j) = false) ∧
            (p[j]? = some '1' → V.testBit (p.length - 1 - j) = true)) := by
  have hnospace : ∀ c ∈ p, c ≠ ' ' := by
    intro c hcm
    rcases hchars c hcm with h | h | h <;> subst h <;> decide
  have hstrip : strip p = p := strip_eq_self p hnospace
  obtain ⟨hsel, hplan⟩ := bitmatchCompile_some hc
  rw [hstrip] at hsel hplan
  have hascii : ∀ c ∈ p, c.toNat < 128 := by
    intro c hcm
    rcases hchars c hcm with h | h | h <;> subst h <;> decide
  have hbl : byteLen p = p.length := byteLen_ascii p hascii
  have hlw : p.length ≤ w := by
    have h2 := selectWidth_le _ _ hsel
    omega
  subst hplan
  rw [bitmatchRun_ne_noMatch, mask_test_iff w p hlw V hV]

theorem c1_witness :
    bitmatchRun 8 ⟨6, 4, []⟩ 5 ≠ MatchResult.noMatch ↔
      (∀ j, ((['1', '0', '_'] : List Char)[j]? = some '0' →
          Nat.testBit 5 ((['1', '0', '_'] : List Char).length - 1 - j) = false) ∧
        ((['1', '0', '_'] : List Char)[j]? = some '1' →
          Nat.testBit 5 ((['1', '0', '_'] : List Char).length - 1 - j) = true)) :=
  c1_fixed_bit_semantics ['1', '0', '_'] (by decide) 8 ⟨6, 4, []⟩ (by decide) 5 (by decide)

/-- C2: for every (all-ASCII) pattern, the compiled fields are exactly the
spec-side maximal-run decomposition — one field per maximal run of adjacent
identical extractor characters, of width the run length and lsb position
`total_length - 1 - end_index` — in left-to-right run order; on a
successful match each field's value is `(V >> offset) & ((1 << width) - 1)`;
in particular `"1aa0 aa00"` yields exactly two width-2 fields at bits 6-5
and 3-2. -/
theorem c2_extraction_fields (p : List Char)
    (hascii : ∀ c ∈ strip p, c.toNat < 128)
    (w : Nat) (plan : Plan) (hc : bitmatchCompile p = some (w, plan)) :
    plan.fields = specFields (strip p) ∧
    (∀ V, V < 2 ^ w → bitmatchRun w plan V ≠ MatchResult.noMatch →
      resultValues (bitmatchRun w plan V) =
        plan.fields.map (fun f => (V >>> f.1) &&& f.2)) ∧
    bitmatchCompile ("1aa0 aa00".toList) =
      some (8, ⟨147, 128, [(5, 2 ^ 2 - 1), (2, 2 ^ 2 - 1)]⟩) := by
  obtain ⟨hsel, hplan⟩ := bitmatchCompile_some hc
  have hlw : (strip p).length ≤ w := by
    have h1 := byteLen_ascii (strip p) hascii
    have h2 := selectWidth_le _ _ hsel
    omega
  subst hplan
  refine ⟨gen_code_fields_spec w (strip p) hascii hlw, ?_, by decide⟩
  intro V hV h
  exact resultValues_of_match w _ V hV h

theorem c2_witness :
    (gen_code 8 (strip ("1aa0 aa00".toList))).fields =
      specFields (strip ("1aa0 aa00".toList)) :=
  (c2_extraction_fields ("1aa0 aa00".toList) (by decide) 8
    (gen_code 8 (strip ("1aa0 aa00".toList))) (by decide)).1

/-- C3: adjacent runs of different extractor letters are distinct fields:
`"1aab bccc"` compiles to exactly three fields of widths 2, 2, 3 in
left-to-right order, and on the 8-bit value 0xAC the generated expression
is present with the tuple (1, 1, 4). -/
theorem c3_adjacent_runs :
    bitmatchCompile ("1aab bccc".toList) =
      some (8, ⟨128, 128, [(5, 2 ^ 2 - 1), (3, 2 ^ 2 - 1), (0, 2 ^ 3 - 1)]⟩) ∧
    bitmatchRun 8 ⟨128, 128, [(5, 2 ^ 2 - 1), (3, 2 ^ 2 - 1), (0, 2 ^ 3 - 1)]⟩ 0xAC =
      MatchResult.tuple [1, 1, 4] := by
  exact ⟨by decide, by decide⟩

/-- C4: width selection is determined solely by the stripped length L:
1..=8 → 8, 9..=16 → 16, 17..=32 → 32, 33..=64 → 64, 65..=128 → 128, and
L = 0 or L > 128 is a compile-time failure; in particular 8 → 8, 9 → 16,
128 → 128, and 0 and 129 fail. -/
theorem c4_width_selection :
    (∀ L, (1 ≤ L ∧ L ≤ 8 → selectWidth L = some 8) ∧
          (9 ≤ L ∧ L ≤ 16 → selectWidth L = some 16) ∧
          (17 ≤ L ∧ L ≤ 32 → selectWidth L = some 32) ∧
          (33 ≤ L ∧ L ≤ 64 → selectWidth L = some 64) ∧
          (65 ≤ L ∧ L ≤ 128 → selectWidth L = some 128) ∧
          (L = 0 ∨ 129 ≤ L → selectWidth L = none)) ∧
    (∀ raw w plan, bitmatchCompile raw = some (w, plan) →
      selectWidth (byteLen (strip raw)) = some w) ∧
    (∀ raw, selectWidth (byteLen (strip raw)) = none → bitmatchCompile raw = none) ∧
    selectWidth 8 = some 8 ∧ selectWidth 9 = some 16 ∧ selectWidth 128 = some 128 ∧
    selectWidth 0 = none ∧ selectWidth 129 = none := by
  refine ⟨?_, fun raw w plan h => (bitmatchCompile_some h).1,
    fun raw h => bitmatchCompile_none h, by decide, by decide, by decide, by decide, by decide⟩
  intro L
  refine ⟨?_, ?_, ?_, ?_, ?_, ?_⟩ <;>
    (intro h; unfold selectWidth; split_ifs <;> first | rfl | (exfalso; omega))

theorem c4_witness : selectWidth 5 = some 8 :=
  (c4_width_selection.1 5).1 (by omega)

/-- C5: result shape of the emitted expression: absent (`None`) exactly
when the fixed-bit test fails; on success, an empty payload for zero
fields, a single scalar for one field, and the ordered tuple of field
values for two or more. -/
theorem c5_result_shape (w : Nat) (plan : Plan) (V : Nat) :
    (bitmatchRun w plan V = MatchResult.noMatch ↔
      ¬ ((V % 2 ^ w) &&& plan.mask = plan.expect)) ∧
    ((V % 2 ^ w) &&& plan.mask = plan.expect →
      (plan.fields = [] → bitmatchRun w plan V = MatchResult.unit) ∧
      (∀ f, plan.fields = [f] → bitmatchRun w plan V = MatchResult.scalar (extract w V f)) ∧
      (2 ≤ plan.fields.length →
        bitmatchRun w plan V = MatchResult.tuple (plan.fields.map (extract w V)))) := by
  have hiff := bitmatchRun_ne_noMatch w plan V
  refine ⟨?_, ?_⟩
  · rw [← hiff]
    exact not_not.symm
  · intro htest
    refine ⟨?_, ?_, ?_⟩
    · intro hf
      unfold bitmatchRun
      rw [if_pos htest, hf]
    · intro f hf
      unfold bitmatchRun
      rw [if_pos htest, hf]
    · intro hlen
      unfold bitmatchRun
      rw [if_pos htest]
      cases hf : plan.fields with
      | nil => rw [hf] at hlen; simp at hlen
      | cons f fs =>
        cases fs with
        | nil => rw [hf] at hlen; simp at hlen
        | cons g gs => rfl

theorem c5_witness :
    bitmatchRun 8 ⟨147, 128, [(5, 3), (2, 3)]⟩ 172 =
      MatchResult.tuple ([(5, 3), (2, 3)].map (extract 8 172)) :=
  ((c5_result_shape 8 ⟨147, 128, [(5, 3), (2, 3)]⟩ 172).2 (by decide)).2.2 (by decide)

/-- C6: in the compiled plan, a bit of `mask` is set exactly at positions
whose pattern character is `0` or `1`, a bit of `expect` exactly at `1`
positions (hence `expect` is a subset of `mask`); `_` and extractor
positions contribute to neither. -/
theorem c6_mask_expect_bits (p : List Char) (w : Nat) (plan : Plan)
    (hc : bitmatchCompile p = some (w, plan)) :
    (∀ k, plan.mask.testBit k = true ↔
        (k < (strip p).length ∧
          ((strip p)[(strip p).length - 1 - k]? = some '0' ∨
           (strip p)[(strip p).length - 1 - k]? = some '1'))) ∧
    (∀ k, plan.expect.testBit k = true ↔
        (k < (strip p).length ∧ (strip p)[(strip p).length - 1 - k]? = some '1')) ∧
    (∀ k, plan.expect.testBit k = true → plan.mask.testBit k = true) := by
  obtain ⟨hsel, hplan⟩ := bitmatchCompile_some hc
  have hlw : (strip p).length ≤ w := by
    have h1 := length_le_byteLen (strip p)
    have h2 := selectWidth_le _ _ hsel
    omega
  subst hplan
  have hmask : ∀ k, (gen_code w (strip p)).mask.testBit k = true ↔
      (k < (strip p).length ∧
        ((strip p)[(strip p).length - 1 - k]? = some '0' ∨
         (strip p)[(strip p).length - 1 - k]? = some '1')) := by
    intro k
    rw [gen_code_mask_testBit w (strip p) hlw k]
    unfold bitAt
    by_cases hk : k < (strip p).length
    · have hjn : (strip p).length - 1 - k < (strip p).length := by omega
      rw [if_pos hk, List.getElem?_eq_getElem hjn]
      simp [hk, maskVal_eq_one_iff]
    · rw [if_neg hk]
      simp [hk]
  have hexp : ∀ k, (gen_code w (strip p)).expect.testBit k = true ↔
      (k < (strip p).length ∧ (strip p)[(strip p).length - 1 - k]? = some '1') := by
    intro k
    rw [gen_code_expect_testBit w (strip p) hlw k]
    unfold bitAt
    by_cases hk : k < (strip p).length
    · have hjn : (strip p).length - 1 - k < (strip p).length := by omega
      rw [if_pos hk, List.getElem?_eq_getElem hjn]
      simp [hk, patVal_eq_one_iff]
    · rw [if_neg hk]
      simp [hk]
  exact ⟨hmask, hexp, fun k h =>
    (hmask k).mpr ⟨((hexp k).mp h).1, Or.inr ((hexp k).mp h).2⟩⟩

theorem c6_witness :
    (gen_code 8 (strip ['1'])).mask.testBit 0 = true :=
  (c6_mask_expect_bits ['1'] 8 (gen_code 8 (strip ['1'])) (by decide)).2.2 0 (by decide)

/-- C7: space characters in the pattern literal are insignificant and
removed before compilation: raw patterns equal after space removal compile
to identical results; in particular `"1010 1100"` and `"10101100"` compile
to identical plans. -/
theorem c7_whitespace_invariance :
    (∀ p1 p2 : List Char, strip p1 = strip p2 →
      bitmatchCompile p1 = bitmatchCompile p2) ∧
    bitmatchCompile ("1010 1100".toList) = bitmatchCompile ("10101100".toList) ∧
    bitmatchCompile ("1010 1100".toList) = some (8, ⟨255, 172, []⟩) := by
  refine ⟨?_, by decide, by decide⟩
  intro p1 p2 h
  unfold bitmatchCompile
  rw [h]

theorem c7_witness :
    bitmatchCompile (' ' :: "10".toList) = bitmatchCompile ("10 ".toList) :=
  c7_whitespace_invariance.1 (' ' :: "10".toList) ("10 ".toList) (by decide)

/-- C8: every malformed invocation fails at compile time with a fatal,
descriptive error and no partial result: fewer or more than three call-site
tokens, a first argument that is not a (quoted) string literal, a second
argument that is not the `,` punctuation, or a third argument that is not a
plain identifier. -/
theorem c8_argument_errors (input : List TokenTree) :
    (input.length < 3 → bitmatchEntry input = .error "too less arguments") ∧
    (3 < input.length → bitmatchEntry input = .error "too much arguments") ∧
    (∀ a b t, input = [a, b, t] →
      ((¬ isStringLit a) →
        bitmatchEntry input = .error "1st argument must be string literal") ∧
      (isStringLit a → b ≠ TokenTree.punct ',' →
        bitmatchEntry input = .error "2nd argument must be ','") ∧
      (isStringLit a → b = TokenTree.punct ',' → (∀ nm, t ≠ TokenTree.ident nm) →
        bitmatchEntry input = .error "3rd argument must be identifier")) := by
  refine ⟨?_, ?_, ?_⟩
  · intro h
    cases input with
    | nil => rfl
    | cons a t =>
      cases t with
      | nil => rfl
      | cons b t2 =>
        cases t2 with
        | nil => rfl
        | cons c t3 =>
          simp only [List.length_cons] at h
          omega
  · intro h
    cases input with
    | nil => simp at h
    | cons a t =>
      cases t with
      | nil => simp at h
      | cons b t2 =>
        cases t2 with
        | nil => simp at h
        | cons c t3 =>
          cases t3 with
          | nil => simp only [List.length_cons, List.length_nil] at h; omega
          | cons d t4 => simp [bitmatchEntry]
  · intro a b t heq
    subst heq
    refine ⟨?_, ?_, ?_⟩
    · intro ha
      cases a with
      | lit s =>
        have hq : ¬(s.head? = some '\"' ∧ s.getLast? = some '\"') := ha
        simp [bitmatchEntry, hq]
      | punct c2 => rfl
      | ident nm => rfl
      | group => rfl
    · intro ha hb
      cases a with
      | lit s =>
        have hq : s.head? = some '\"' ∧ s.getLast? = some '\"' := ha
        cases b with
        | punct c2 =>
          have hcne : c2 ≠ ',' := fun hcc => hb (by rw [hcc])
          simp [bitmatchEntry, hq, hcne]
        | lit s2 => simp [bitmatchEntry, hq]
        | ident nm => simp [bitmatchEntry, hq]
        | group => simp [bitmatchEntry, hq]
      | punct c2 => exact ha.elim
      | ident nm => exact ha.elim
      | group => exact ha.elim
    · intro ha hb ht
      cases a with
      | lit s =>
        have hq : s.head? = some '\"' ∧ s.getLast? = some '\"' := ha
        subst hb
        cases t with
        | ident nm => exact absurd rfl (ht nm)
        | lit s2 => simp [bitmatchEntry, hq]
        | punct c3 => simp [bitmatchEntry, hq]
        | group => simp [bitmatchEntry, hq]
      | punct c2 => exact ha.elim
      | ident nm => exact ha.elim
      | group => exact ha.elim

theorem c8_witness : bitmatchEntry [] = .error "too less arguments" :=
  (c8_argument_errors []).1 (by decide)

/-- C9: the length used for width-bracket selection and field offsets is
the UTF-8 byte length of the stripped pattern, while the scan iterates
characters: byte and character length agree exactly on ASCII patterns (so
the spec's character-count semantics hold there), while a pattern with a
multi-byte extractor label selects a wider bracket (8 chars containing `é`
→ width 16, though character count 8 would select width 8) and shifts
field offsets (`"α0"` compiles with field offset 2 where the character
count semantics of `specFields` put it at offset 1). -/
theorem c9_byte_length_semantics :
    (∀ p : List Char, (∀ c ∈ p, c.toNat < 128) → byteLen p = p.length) ∧
    (("é0000000".toList).length = 8 ∧ byteLen ("é0000000".toList) = 9 ∧
      selectWidth (("é0000000".toList).length) = some 8 ∧
      bitmatchCompile ("é0000000".toList) = some (16, ⟨127, 0, [(8, 1)]⟩)) ∧
    (bitmatchCompile ("α0".toList) = some (8, ⟨1, 0, [(2, 1)]⟩) ∧
      specFields ("α0".toList) = [(1, 1)]) := by
  refine ⟨fun p h => byteLen_ascii p h,
    ⟨by decide, by decide, by decide, by decide⟩, by decide, ?_⟩
  simp +decide [specFields, specFieldsAux_cons, specFieldsAux_nil]

theorem c9_witness : byteLen ['a'] = (['a'] : List Char).length :=
  c9_byte_length_semantics.1 ['a'] (by decide)

/-- C10: pattern stripping removes only the ASCII space U+0020: every
other character — including other whitespace such as tab — survives,
is treated as an extractor label contributing an extraction field, and
counts toward the pattern length. -/
theorem c10_only_space_stripped :
    (∀ (p : List Char) (c : Char), c ∈ strip p ↔ (c ∈ p ∧ c ≠ ' ')) ∧
    strip ['0', '\t', '1'] = ['0', '\t', '1'] ∧
    bitmatchCompile ['0', '\t', '1'] = some (8, ⟨5, 1, [(1, 1)]⟩) ∧
    bitmatchCompile ['0', '0', '0', '0', '0', '0', '0', '0', '\t'] =
      some (16, ⟨510, 0, [(0, 1)]⟩) := by
  refine ⟨?_, by decide, by decide, by decide⟩
  intro p c
  unfold strip
  rw [List.mem_filter]
  simp

end Bitmatch
